import Mathlib

/-!
Verification of the sparse Merkle tree engine (writer, reader, tile cache)
against its natural-language specification.  The Go source is shallowly
embedded: byte strings become `List Nat`, node identifiers become their
explicit bit paths, channels become explicit buffer/closed states, and the
storage transaction becomes explicit state passing with commit-on-success /
rollback-on-error semantics.
-/

namespace SMT

/-- Byte strings (hashes, indices, tile path bytes) as lists of byte values. -/
abbrev Bytes := List Nat

/-- Bits of one byte, most significant first.  Mirrors the bit order used by
the Go `NodeID` path representation. -/
def byteBits (b : Nat) : List Bool :=
  (List.range 8).map (fun i => decide (b / 2 ^ (7 - i) % 2 = 1))

/-- All bits of a byte string, most significant bit of the first byte first. -/
def bytesToBits (bs : Bytes) : List Bool :=
  bs.flatMap byteBits

/-- Big-endian integer value of a byte string, as produced by
`NodeID.BigInt()` on a full-length node identifier. -/
def bytesToNat (bs : Bytes) : Nat :=
  bs.foldl (fun a x => a * 256 + x) 0

/-- Big-endian bit decomposition of `n` into `d` bits, as produced by
`NewNodeIDFromBigInt(d, n, bitLen)` for the first `d` path bits. -/
def natBits (d n : Nat) : List Bool :=
  (List.range d).map (fun i => decide (n / 2 ^ (d - 1 - i) % 2 = 1))

/-- Modelled from the spec (the `storage.NodeID` implementation is not part
of the provided sources): a node is addressed by the bit string of its path
from the root; `prefixLenBits` is the length of that bit string. -/
structure NodeID where
  path : List Bool
deriving DecidableEq, Repr

/-- Length in bits of the node identifier's path. -/
def NodeID.prefLenBits (n : NodeID) : Nat := n.path.length

/-- Modelled from the spec: `Equivalent` compares the path bit string and its
length; with paths stored exactly, this is equality of the bit lists. -/
def NodeID.equivalent (a b : NodeID) : Bool :=
  a.prefLenBits == b.prefLenBits && a.path == b.path

/-- A stored Merkle node: identifier, hash and the revision it was written at,
mirroring `storage.Node`. -/
structure Node where
  nodeID : NodeID
  hash : Bytes
  nodeRevision : Int
deriving DecidableEq, Repr

/-- The node identifier built by `NewEmptyNodeID(256)` as used by
`RootAtRevision`: zero path bits. -/
def rootNodeID : NodeID := ⟨[]⟩

/-- Errors surfaced by `SparseMerkleTreeReader.RootAtRevision`, one
constructor per distinct `return`-with-error site in the source. -/
inductive ReaderErr where
  | storage (e : String)
  | noSuchRevision
  | tooManyNodes (n : Nat)
  | wrongID (id : NodeID)
  | badRevision (got rev : Int)
deriving DecidableEq, Repr

/-- Embedding of `SparseMerkleTreeReader.RootAtRevision`.  The storage call
`tx.GetMerkleNodes(ctx, rev, [rootNodeID])` is passed in as its result
(`.error` when the backend failed, `.ok nodes` otherwise); the branch
structure follows the source line by line. -/
def RootAtRevision (rev : Int) (fetched : Except String (List Node)) :
    Except ReaderErr Bytes :=
  match fetched with
  | .error e => .error (.storage e)
  | .ok nodes =>
    match nodes with
    | [] => .error .noSuchRevision
    | [n] =>
      if !(n.nodeID.equivalent rootNodeID) then
        .error (.wrongID n.nodeID)
      else if n.nodeRevision > rev then
        .error (.badRevision n.nodeRevision rev)
      else
        .ok n.hash
    | _ :: _ :: _ => .error (.tooManyNodes nodes.length)

/-- Embedding of the `setNode` closure defined inside
`subtreeWriter.buildSubtree`: the root node of a non-empty-prefixed subtree
(`depth == len(prefix)*8 && len(prefix) > 0`) is skipped, every other call
appends a node at the given depth/index to the pending node list. -/
def setNodeFn (pfx : Bytes) (rev : Int) (acc : List Node)
    (depth : Nat) (index : Nat) (h : Bytes) : List Node :=
  if depth = pfx.length * 8 ∧ 0 < pfx.length then
    acc
  else
    acc ++ [⟨⟨natBits depth index⟩, h, rev⟩]

/-- Flips the last bit of a non-empty bit path, giving the sibling node
identifier at the same depth. -/
def sibOf (q : List Bool) : NodeID :=
  ⟨q.dropLast ++ [!q.getLastD false]⟩

/-- Modelled from the spec (the `storage.NodeID` implementation is not part
of the provided sources): `Siblings()` returns the sibling identifiers along
the path from the leaf up to the root; entry 0 is the sibling at the leaf
level (full path length), entry `D-1` is the sibling of the root's child
(path length 1). -/
def siblings (p : List Bool) : List NodeID :=
  (List.range p.length).map (fun i => sibOf (p.take (p.length - i)))

/-- Association-list lookup with decidable key equality; models a Go map
read. -/
def alookup {κ α : Type} [DecidableEq κ] : List (κ × α) → κ → Option α
  | [], _ => none
  | e :: rest, k => if e.1 = k then some e.2 else alookup rest k

/-- Association-list insert-or-replace; models a Go map write (last writer
wins for an existing key). -/
def ainsert {κ α : Type} [DecidableEq κ] : List (κ × α) → κ → α → List (κ × α)
  | [], k, v => [(k, v)]
  | e :: rest, k, v => if e.1 = k then (k, v) :: rest else e :: ainsert rest k v

/-- Association-list delete; models a Go map `delete` (removes every entry
carrying the key). -/
def aerase {κ α : Type} [DecidableEq κ] : List (κ × α) → κ → List (κ × α)
  | [], _ => []
  | e :: rest, k => if e.1 = k then aerase rest k else e :: aerase rest k

/-- A deferred leaf producer sitting in a worker's `leafQueue`.  The source
pushes exactly two shapes of closure: the trivial one built by `SetLeaf`
(yields the given index and hash) and the child-root future built by
`getOrCreateChildSubtree` (yields the child's prefix and the child's
eventual root hash, or the child's error).  Child workers are named by
numeric identifiers. -/
inductive Producer where
  | trivial (index : Bytes) (hash : Bytes)
  | childRoot (childPfx : Bytes) (child : Nat)
deriving DecidableEq, Repr

/-- Runs one producer closure.  `env` gives each child worker's `RootHash()`
result (hash or error). -/
def runProducer (env : Nat → Except String Bytes) :
    Producer → Except String (Bytes × Bytes)
  | .trivial index hash => .ok (index, hash)
  | .childRoot cp child =>
    match env child with
    | .error e => .error e
    | .ok h => .ok (cp, h)

/-- A leaf handed to HStar2: big-integer index and leaf hash, mirroring
`HStar2LeafHash`. -/
structure HStar2LeafHash where
  index : Nat
  leafHash : Bytes
deriving DecidableEq, Repr

/-- Embedding of the leaf-queue drain loop at the top of
`subtreeWriter.buildSubtree`: each producer is run in queue order; the first
error aborts; otherwise its index/hash is appended both to the HStar2 leaf
list and to the pending node list at the full-depth node identifier. -/
def drainQueue (env : Nat → Except String Bytes) (rev : Int) :
    List Producer → Except String (List HStar2LeafHash × List Node)
  | [] => .ok ([], [])
  | p :: rest =>
    match runProducer env p with
    | .error e => .error e
    | .ok (index, hash) =>
      match drainQueue env rev rest with
      | .error e => .error e
      | .ok (ls, ns) =>
        .ok (⟨bytesToNat index, hash⟩ :: ls,
             ⟨⟨bytesToBits index⟩, hash, rev⟩ :: ns)

/-- State of one `subtreeWriter` as far as `SetLeaf` and
`getOrCreateChildSubtree` touch it: its prefix, its stratum depth, the leaf
queue contents, the child map and a counter supplying fresh child worker
identifiers. -/
structure WState where
  pfx : Bytes
  subtreeDepth : Nat
  leafQueue : List Producer
  children : List (Bytes × Nat)
  nextChild : Nat
deriving DecidableEq, Repr

/-- Outcome of one `SetLeaf` call: the too-shallow error, delegation of the
call to a child worker, or enqueueing of a trivial producer. -/
inductive SetLeafResult where
  | tooShallow (depth absDepth : Nat)
  | delegated (index : Bytes) (hash : Bytes) (child : Nat)
  | enqueued
deriving DecidableEq, Repr

/-- Embedding of `subtreeWriter.getOrCreateChildSubtree`: return the mapped
child if the prefix is present; otherwise create a fresh child worker,
record it in the child map, and atomically push the child-root future onto
the leaf queue. -/
def getOrCreateChildSubtree (s : WState) (childPfx : Bytes) : Nat × WState :=
  match alookup s.children childPfx with
  | some c => (c, s)
  | none =>
    (s.nextChild,
     { s with
        children := ainsert s.children childPfx s.nextChild,
        leafQueue := s.leafQueue ++ [.childRoot childPfx s.nextChild],
        nextChild := s.nextChild + 1 })

/-- Embedding of `subtreeWriter.SetLeaf`: compare the absolute depth of the
index with the worker's absolute subtree depth and fail, delegate, or
enqueue accordingly. -/
def setLeafStep (s : WState) (index hash : Bytes) : SetLeafResult × WState :=
  let depth := index.length * 8
  let absSubtreeDepth := s.pfx.length * 8 + s.subtreeDepth
  if depth < absSubtreeDepth then
    (.tooShallow depth absSubtreeDepth, s)
  else if depth > absSubtreeDepth then
    let childPfx := index.take (absSubtreeDepth / 8)
    let cs := getOrCreateChildSubtree s childPfx
    (.delegated index hash cs.1, cs.2)
  else
    (.enqueued, { s with leafQueue := s.leafQueue ++ [.trivial index hash] })

/-- The value placed on a worker's root channel: hash or error, mirroring
`rootHashOrError` (Go `nil` becomes `none`). -/
structure RootHashOrError where
  hash : Option Bytes
  err : Option String
deriving DecidableEq, Repr

/-- A Go channel as explicit state: its buffered values in order, and
whether it has been closed. -/
structure Chan (α : Type) where
  buffer : List α
  closed : Bool
deriving DecidableEq, Repr

/-- One receive from a channel: takes the first buffered value if any;
yields the zero value on a closed empty channel; would block (`none`)
otherwise. -/
def chanRecv {α : Type} (zero : α) (c : Chan α) : Option (α × Chan α) :=
  match c.buffer with
  | x :: rest => some (x, ⟨rest, c.closed⟩)
  | [] => if c.closed then some (zero, c) else none

/-- Result of the `n`-th receive (counting from 0) from a channel on which
no other receiver acts, or `none` if that receive would block. -/
def recvN {α : Type} (zero : α) : Nat → Chan α → Option α
  | 0, c => (chanRecv zero c).map (fun r => r.1)
  | n + 1, c =>
    match chanRecv zero c with
    | none => none
    | some r => recvN zero n r.2

/-- Applies the `setNode` closure to the calls HStar2 makes, in order,
extending the pending node list exactly as `buildSubtree`'s closure does. -/
def applySetNodes (pfx : Bytes) (rev : Int)
    (calls : List (Nat × Nat × Bytes)) (acc : List Node) : List Node :=
  calls.foldl (fun a c => setNodeFn pfx rev a c.1 c.2.1 c.2.2) acc

/-- The transaction body of `subtreeWriter.buildSubtree`: drain the queue,
run HStar2 (abstracted as a function from the leaf list to either an error
- covering `getNode` storage failures inside it - or the root hash plus the
sequence of `setNode` calls it makes), then write the pending nodes.  The
first error aborts the body. -/
def buildInner (pfx : Bytes) (rev : Int) (env : Nat → Except String Bytes)
    (queue : List Producer)
    (hstar2 : List HStar2LeafHash → Except String (Bytes × List (Nat × Nat × Bytes)))
    (setMerkleNodes : List Node → Except String Unit) :
    Except String (Bytes × List Node) :=
  match drainQueue env rev queue with
  | .error e => .error e
  | .ok (leaves, nodes0) =>
    match hstar2 leaves with
    | .error e => .error e
    | .ok (root, calls) =>
      let nodesToStore := applySetNodes pfx rev calls nodes0
      match setMerkleNodes nodesToStore with
      | .error e => .error e
      | .ok _ => .ok (root, nodesToStore)

/-- Result of one `buildSubtree` run: the nodes visible in storage after the
enclosing transaction finished (committed or rolled back), and the state of
the root channel when the goroutine exits. -/
structure BuildOutcome where
  storage : List Node
  rootChan : Chan RootHashOrError
deriving Repr

/-- Embedding of `subtreeWriter.buildSubtree` together with the `runTX`
transaction contract: on success the pending nodes are committed (appended
to storage) and the root hash is sent; on error the transaction is rolled
back (storage unchanged) and the error is sent.  Either way exactly one
value is sent on the root channel, which is then closed by the deferred
`close`. -/
def buildSubtree (pfx : Bytes) (rev : Int) (env : Nat → Except String Bytes)
    (queue : List Producer)
    (hstar2 : List HStar2LeafHash → Except String (Bytes × List (Nat × Nat × Bytes)))
    (setMerkleNodes : List Node → Except String Unit)
    (storage0 : List Node) : BuildOutcome :=
  match buildInner pfx rev env queue hstar2 setMerkleNodes with
  | .error e => ⟨storage0, ⟨[⟨none, some e⟩], true⟩⟩
  | .ok (root, ns) => ⟨storage0 ++ ns, ⟨[⟨some root, none⟩], true⟩⟩

/-- The node map built at the top of `InclusionProof`: nodes keyed by their
identifier's path (the injective content of `NodeID.String()`), later
entries overwriting earlier ones as in a Go map. -/
def buildNodeMap (nodes : List Node) : List (List Bool × Bytes) :=
  nodes.foldl (fun m n => ainsert m n.nodeID.path n.hash) []

/-- The proof-assembly loop of `InclusionProof`: for each sibling in order,
look its path up in the node map; a hit becomes the proof element and is
deleted from the map, a miss leaves the element empty (`nil` in the source,
to be replaced by the null hash client-side). -/
def proofLoop : List NodeID → List (List Bool × Bytes) →
    List (Option Bytes) × List (List Bool × Bytes)
  | [], m => ([], m)
  | s :: rest, m =>
    match alookup m s.path with
    | none =>
      let r := proofLoop rest m
      (none :: r.1, r.2)
    | some h =>
      let r := proofLoop rest (aerase m s.path)
      (some h :: r.1, r.2)

/-- Embedding of `SparseMerkleTreeReader.InclusionProof`: compute the
sibling identifiers of the key, look each up in the map of fetched nodes,
and fail if any fetched node was not consumed. -/
def InclusionProof (index : Bytes) (fetched : Except String (List Node)) :
    Except String (List (Option Bytes)) :=
  match fetched with
  | .error e => .error e
  | .ok nodes =>
    let sibs := siblings (bytesToBits index)
    let m0 := buildNodeMap nodes
    let rm := proofLoop sibs m0
    if rm.2.length ≠ 0 then
      .error "failed to consume all returned nodes"
    else
      .ok rm.1

/-- Embedding of `leafQueueSize`: 1024 for a single-stratum (bottom) plan,
otherwise one slot per possible child of the worker's own stratum. -/
def leafQueueSize (depths : List Nat) : Nat :=
  if depths.length = 1 then 1024 else 2 ^ depths.headD 0

/-- The stratum plan seen by the worker serving stratum `i`:
`newLocalSubtreeWriter` passes `depths[1:]` to each child it creates, so the
worker `i` levels down runs with `depths.drop i`. -/
def workerQueueCapacity (depths : List Nat) (i : Nat) : Nat :=
  leafQueueSize (depths.drop i)

/-- Modelled from the spec (the subtree-cache implementation is not part of
the provided sources, only its tests are): a tile is a dense fixed-depth
subtree holding hashes keyed by the bit suffix below the tile's root; leaf
hashes (full-depth suffixes) and interior hashes are kept in separate maps. -/
structure Tile where
  tilePfx : List Bool
  depth : Nat
  leaves : List (List Bool × Bytes)
  internalNodes : List (List Bool × Bytes)
deriving DecidableEq, Repr

/-- Modelled from the spec: a cache entry is a loaded tile plus its dirty
flag. -/
structure TileEntry where
  tile : Tile
  dirty : Bool
deriving DecidableEq, Repr

/-- Modelled from the spec: the cache state is a map from tile root path to
cache entry. -/
structure SCache where
  entries : List (List Bool × TileEntry)
deriving DecidableEq, Repr

/-- The tile store, keyed by tile root path; stands for the storage
backend's `getSubtree`/`setSubtrees` state. -/
abbrev TileStore := List (List Bool × Tile)

/-- Modelled from the spec: split a node identifier into its containing
tile's root path and the suffix below it, for a uniform stratum height `h`
(the tile of a node at depth `L` is rooted at the largest multiple of `h`
strictly below `L`). -/
def splitID (h : Nat) (p : List Bool) : List Bool × List Bool :=
  let k := (p.length - 1) / h * h
  (p.take k, p.drop k)

/-- Reads a hash from a tile: from `leaves` when the suffix is full depth,
from `internalNodes` otherwise. -/
def Tile.valueAt (t : Tile) (sfx : List Bool) : Option Bytes :=
  if sfx.length = t.depth then alookup t.leaves sfx else alookup t.internalNodes sfx

/-- Writes a hash into a tile at the given suffix. -/
def Tile.setValue (t : Tile) (sfx : List Bool) (hash : Bytes) : Tile :=
  if sfx.length = t.depth then
    { t with leaves := ainsert t.leaves sfx hash }
  else
    { t with internalNodes := ainsert t.internalNodes sfx hash }

/-- Modelled from the spec: ensure the tile for `tp` is loaded, fetching it
from the store on a cache miss and treating an absent stored tile as an
empty tile of the stratum height; a freshly loaded tile is clean. -/
def loadTile (h : Nat) (store : TileStore) (c : SCache) (tp : List Bool) :
    SCache × TileEntry :=
  match alookup c.entries tp with
  | some e => (c, e)
  | none =>
    let t : Tile :=
      match alookup store tp with
      | some t => t
      | none => ⟨tp, h, [], []⟩
    (⟨ainsert c.entries tp ⟨t, false⟩⟩, ⟨t, false⟩)

/-- Modelled from the spec: `getNodeHash` splits the identifier, loads the
containing tile read-through, and returns the hash at the suffix. -/
def getNodeHash (h : Nat) (store : TileStore) (c : SCache) (p : List Bool) :
    Option Bytes × SCache :=
  let ts := splitID h p
  let ce := loadTile h store c ts.1
  (ce.2.tile.valueAt ts.2, ce.1)

/-- Modelled from the spec: `setNodeHash` splits the identifier, loads the
containing tile, and inserts the hash keyed by the suffix, marking the tile
dirty - except that if the entry already present equals the hash the write
is dropped and the dirty flag is left untouched (idempotence). -/
def setNodeHash (h : Nat) (store : TileStore) (c : SCache) (p : List Bool)
    (hash : Bytes) : SCache :=
  let ts := splitID h p
  let ce := loadTile h store c ts.1
  if ce.2.tile.valueAt ts.2 = some hash then
    ce.1
  else
    ⟨ainsert ce.1.entries ts.1 ⟨ce.2.tile.setValue ts.2 hash, true⟩⟩

/-- Modelled from the spec: `flush` emits all dirty tiles in a single
`writeTiles` batch, skipping the call entirely when no tile is dirty, and
clears the dirty flags.  Returns the number of `writeTiles` calls made, the
updated store, and the cache afterwards. -/
def flushCache (c : SCache) (store : TileStore) : Nat × TileStore × SCache :=
  let ds := c.entries.filter (fun e => e.2.dirty)
  if ds.length = 0 then
    (0, store, c)
  else
    (1,
     ds.foldl (fun st e => ainsert st e.1 e.2.tile) store,
     ⟨c.entries.map (fun e => (e.1, ⟨e.2.tile, false⟩))⟩)

/-- One round of the idempotent-writes scenario from the cache test: a fresh
cache reads the node through the store, writes `hash` to it, and flushes.
Returns the number of `writeTiles` calls and the store afterwards. -/
def cacheRound (h : Nat) (p : List Bool) (hash : Bytes) (store : TileStore) :
    Nat × TileStore :=
  let c0 : SCache := ⟨[]⟩
  let g := getNodeHash h store c0 p
  let c2 := setNodeHash h store g.2 p hash
  let f := flushCache c2 store
  (f.1, f.2.1)

/-- Total number of `writeTiles` calls over `n` rounds of the
idempotent-writes scenario, threading the store through. -/
def cacheRounds (h : Nat) (p : List Bool) (hash : Bytes) :
    Nat → TileStore → Nat
  | 0, _ => 0
  | n + 1, store =>
    let r := cacheRound h p hash store
    r.1 + cacheRounds h p hash n r.2

/-- Modelled from the spec: one step of the compact-range append used by
`PopulateLogTile`.  Pushing a node at level `l` onto the stack merges it
with the top entry while that entry sits at the same level, producing the
parent hash one level up and logging every produced interior node.  Stack
entries and log entries are (level, hash) pairs; the stack's top is first. -/
def pushMerge (H : Bytes → Bytes → Bytes) :
    Nat → Bytes → List (Nat × Bytes) →
    List (Nat × Bytes) × List (Nat × Bytes)
  | l, x, [] => ([(l, x)], [])
  | l, x, e :: rest =>
    if e.1 = l then
      let r := pushMerge H (l + 1) (H e.2 x) rest
      (r.1, (l + 1, H e.2 x) :: r.2)
    else
      ((l, x) :: e :: rest, [])

/-- Modelled from the spec: appending a sequence of leaf hashes to a
compact-range stack, collecting the log of all interior hashes produced. -/
def appendAll (H : Bytes → Bytes → Bytes) :
    List Bytes → List (Nat × Bytes) →
    List (Nat × Bytes) × List (Nat × Bytes)
  | [], s => (s, [])
  | x :: rest, s =>
    let r1 := pushMerge H 0 x s
    let r2 := appendAll H rest r1.1
    (r2.1, r1.2 ++ r2.2)

/-- Modelled from the spec: the compact-range root of a stack, merging the
remaining entries upward (deeper stack entries are the older, left
siblings). -/
def rootFromStack (H : Bytes → Bytes → Bytes) :
    List (Nat × Bytes) → Bytes
  | [] => []
  | e :: rest => rest.foldl (fun acc f => H f.2 acc) e.2

/-- The expected number of interior entries of a completely filled tile of
depth `d`: one per interior node at levels `1 .. d-1`. -/
def internalNodeCount (d : Nat) : Nat := 2 ^ d - 2

/-- The independent Merkle tree root over a leaf sequence of length `2^d`,
by straight recursion on halves; the comparison definition the populated
tile's root is checked against. -/
def mth (H : Bytes → Bytes → Bytes) : Nat → List Bytes → Bytes
  | 0, l => l.headD []
  | d + 1, l => H (mth H d (l.take (2 ^ d))) (mth H d (l.drop (2 ^ d)))

/-- The populated form of a log tile: its root hash and its interior-node
log. -/
structure PopulatedTile where
  rootHash : Bytes
  internalNodes : List (Nat × Bytes)
deriving DecidableEq, Repr

/-- Modelled from the spec (the `PopulateLogTile` implementation is not part
of the provided sources, only its tests are): treat the tile's leaves, in
index order, as an append-only log of a compact Merkle range; the root hash
is the range's root, and for a completely filled tile the interior nodes
are every hash produced during the append at levels strictly between 0 and
`depth` - the tile root (level `depth`) is kept out of the map.  A
partially filled tile gets no interior nodes. -/
def PopulateLogTile (H : Bytes → Bytes → Bytes) (d : Nat)
    (leaves : List Bytes) : PopulatedTile :=
  let r := appendAll H leaves []
  { rootHash := rootFromStack H r.1,
    internalNodes :=
      if leaves.length = 2 ^ d then
        r.2.filter (fun e => 0 < e.1 ∧ e.1 < d)
      else
        [] }

/-! Theorems settling the claims. -/

/-- C3: for every subtree worker with a non-empty prefix, the `setNode`
callback used during HStar2 never adds the stratum's own root node (the
node at depth equal to the prefix bit length) to the list of nodes
persisted to storage, and every node at strictly greater depth passed to
`setNode` is added. -/
theorem C3_setNode_excludes_own_root (pfx : Bytes) (rev : Int)
    (acc : List Node) (depth index : Nat) (h : Bytes) :
    (pfx ≠ [] → setNodeFn pfx rev acc (pfx.length * 8) index h = acc) ∧
    (pfx.length * 8 < depth →
      setNodeFn pfx rev acc depth index h =
        acc ++ [⟨⟨natBits depth index⟩, h, rev⟩]) := by
  constructor
  · intro hne
    have hpos : 0 < pfx.length := List.length_pos.mpr hne
    simp [setNodeFn, hpos]
  · intro hlt
    have hne : ¬(depth = pfx.length * 8 ∧ 0 < pfx.length) := by omega
    simp [setNodeFn, hne]

/-- Witness for C3 at a concrete worker prefix of one byte. -/
theorem C3_setNode_excludes_own_root_witness :
    setNodeFn [1] 7 [] 8 0 [5] = [] ∧
    setNodeFn [1] 7 [] 9 2 [5] = [⟨⟨natBits 9 2⟩, [5], 7⟩] := by
  have t1 := (C3_setNode_excludes_own_root [1] 7 [] 8 0 [5]).1 (by decide)
  have t2 := (C3_setNode_excludes_own_root [1] 7 [] 9 2 [5]).2 (by decide)
  exact ⟨t1, t2⟩

/-- C4: `RootAtRevision` fails with `ErrNoSuchRevision` exactly when storage
returns zero nodes for the root node id; it fails with a distinct
inconsistent-storage error whenever storage returns more than one node, a
node whose id is not equivalent to the root id, or a node with revision
greater than the requested one; otherwise it returns that node's hash. -/
theorem C4_rootAtRevision (rev : Int) (fetched : Except String (List Node)) :
    (RootAtRevision rev fetched = .error .noSuchRevision ↔ fetched = .ok []) ∧
    (∀ nodes, fetched = .ok nodes → 1 < nodes.length →
      RootAtRevision rev fetched = .error (.tooManyNodes nodes.length)) ∧
    (∀ n, fetched = .ok [n] → n.nodeID.equivalent rootNodeID = false →
      RootAtRevision rev fetched = .error (.wrongID n.nodeID)) ∧
    (∀ n, fetched = .ok [n] → n.nodeID.equivalent rootNodeID = true →
      rev < n.nodeRevision →
      RootAtRevision rev fetched = .error (.badRevision n.nodeRevision rev)) ∧
    (∀ n, fetched = .ok [n] → n.nodeID.equivalent rootNodeID = true →
      n.nodeRevision ≤ rev →
      RootAtRevision rev fetched = .ok n.hash) := by
  refine ⟨?_, ?_, ?_, ?_, ?_⟩
  · constructor
    · intro h
      cases fetched with
      | error e => simp [RootAtRevision] at h
      | ok nodes =>
        cases nodes with
        | nil => rfl
        | cons n rest =>
          cases rest with
          | nil =>
            simp only [RootAtRevision] at h
            split at h
            · simp at h
            · split at h <;> simp at h
          | cons m rest2 => simp [RootAtRevision] at h
    · intro h
      subst h
      rfl
  · intro nodes hf hlen
    subst hf
    match nodes, hlen with
    | n :: m :: rest, _ => rfl
  · intro n hf heq
    subst hf
    simp [RootAtRevision, heq]
  · intro n hf heq hrev
    subst hf
    simp [RootAtRevision, heq, not_le.mpr hrev, Int.not_le.mpr hrev]
  · intro n hf heq hrev
    subst hf
    simp [RootAtRevision, heq, not_lt.mpr hrev, Int.not_lt.mpr hrev]

/-- Witness for C4: the empty fetch yields `noSuchRevision`; a single
matching node at an allowed revision yields its hash. -/
theorem C4_rootAtRevision_witness :
    RootAtRevision 0 (.ok []) = .error .noSuchRevision ∧
    RootAtRevision 5 (.ok [⟨⟨[]⟩, [1, 2], 3⟩]) = .ok [1, 2] := by
  refine ⟨(C4_rootAtRevision 0 (.ok [])).1.mpr rfl, ?_⟩
  exact (C4_rootAtRevision 5 (.ok [⟨⟨[]⟩, [1, 2], 3⟩])).2.2.2.2
    ⟨⟨[]⟩, [1, 2], 3⟩ rfl (by decide) (by decide)

/-- C9 counterexample: in the stratum plan `[4, 8, 244]` the worker for
stratum 1 is an upper (non-bottom) stratum worker, yet its leaf queue
capacity is `2^8 = 256`, not `2^(topStratumDepth) = 2^4 = 16`: the capacity
follows the worker's own stratum depth, not the top stratum's. -/
theorem C9_capacity_counterexample :
    (1 : Nat) < [4, 8, 244].length - 1 ∧
    workerQueueCapacity [4, 8, 244] 1 = 256 ∧
    2 ^ ([4, 8, 244].headD 0) = 16 ∧
    workerQueueCapacity [4, 8, 244] 1 ≠ 2 ^ ([4, 8, 244].headD 0) := by
  refine ⟨by decide, by decide, by decide, by decide⟩

/-- C9 as amended: the bottom stratum's worker has leaf queue capacity
exactly 1024, and every upper stratum's worker has capacity two to the
power of its own stratum depth (the first entry of the depth list it was
constructed with); for the root worker, and for any plan whose upper strata
share one depth, this equals `2^(topStratumDepth)`. -/
theorem C9_queue_capacity (depths : List Nat) (i : Nat)
    (hi : i < depths.length) :
    (i = depths.length - 1 → workerQueueCapacity depths i = 1024) ∧
    (i < depths.length - 1 →
      workerQueueCapacity depths i = 2 ^ depths.getD i 0) := by
  constructor
  · intro h
    have hlen : (depths.drop i).length = 1 := by
      rw [List.length_drop]
      omega
    simp [workerQueueCapacity, leafQueueSize, hlen]
  · intro h
    have hlen : (depths.drop i).length ≠ 1 := by
      rw [List.length_drop]
      omega
    have hhead : (depths.drop i).headD 0 = depths.getD i 0 := by
      rw [List.headD_eq_head?_getD, List.head?_drop,
        List.getD_eq_getElem?_getD]
    simp only [workerQueueCapacity, leafQueueSize, if_neg hlen, hhead]

/-- Witness for C9 as amended, at the default plan `[8, 248]`: the root
worker gets `2^8` slots and the bottom worker gets 1024. -/
theorem C9_queue_capacity_witness :
    workerQueueCapacity [8, 248] 1 = 1024 ∧
    workerQueueCapacity [8, 248] 0 = 256 := by
  refine ⟨(C9_queue_capacity [8, 248] 1 (by decide)).1 (by decide), ?_⟩
  have t := (C9_queue_capacity [8, 248] 0 (by decide)).2 (by decide)
  simpa using t

/-- Looking a key up right after inserting it finds the inserted value. -/
theorem alookup_ainsert_self {κ α : Type} [DecidableEq κ]
    (m : List (κ × α)) (k : κ) (v : α) : alookup (ainsert m k v) k = some v := by
  induction m with
  | nil => simp [ainsert, alookup]
  | cons e rest ih =>
    by_cases he : e.1 = k
    · simp [ainsert, he, alookup]
    · simp [ainsert, he, alookup, ih]

/-- C6: `setLeaf(index, hash)` on a subtree worker fails with the
too-shallow error and changes nothing when the absolute depth of the index
is below the worker's absolute subtree depth; delegates to the child worker
for the prefix `index[:absDepth/8]` when above it, reusing the existing
child for a duplicate prefix and leaving the state unchanged in that case;
and enqueues a producer trivially yielding `(index, hash)` when equal. -/
theorem C6_setLeaf_dispatch (s : WState) (index hash : Bytes) :
    (index.length * 8 < s.pfx.length * 8 + s.subtreeDepth →
      setLeafStep s index hash =
        (.tooShallow (index.length * 8) (s.pfx.length * 8 + s.subtreeDepth),
         s)) ∧
    (s.pfx.length * 8 + s.subtreeDepth < index.length * 8 →
      ∃ c s2, setLeafStep s index hash = (.delegated index hash c, s2) ∧
        alookup s2.children
          (index.take ((s.pfx.length * 8 + s.subtreeDepth) / 8)) = some c ∧
        (∀ c0,
          alookup s.children
            (index.take ((s.pfx.length * 8 + s.subtreeDepth) / 8)) = some c0 →
          c = c0 ∧ s2 = s)) ∧
    (index.length * 8 = s.pfx.length * 8 + s.subtreeDepth →
      setLeafStep s index hash =
        (.enqueued,
         { s with leafQueue := s.leafQueue ++ [.trivial index hash] })) := by
  refine ⟨?_, ?_, ?_⟩
  · intro hlt
    simp [setLeafStep, hlt]
  · intro hgt
    have hnlt : ¬(index.length * 8 < s.pfx.length * 8 + s.subtreeDepth) := by
      omega
    cases hc : alookup s.children
        (index.take ((s.pfx.length * 8 + s.subtreeDepth) / 8)) with
    | some c =>
      refine ⟨c, s, ?_, hc, ?_⟩
      · simp [setLeafStep, hnlt, hgt, getOrCreateChildSubtree, hc]
      · intro c0 hc0
        exact ⟨Option.some_inj.mp hc0, rfl⟩
    | none =>
      refine ⟨s.nextChild,
        { s with
            children := ainsert s.children
              (index.take ((s.pfx.length * 8 + s.subtreeDepth) / 8)) s.nextChild,
            leafQueue := s.leafQueue ++
              [.childRoot (index.take ((s.pfx.length * 8 + s.subtreeDepth) / 8))
                s.nextChild],
            nextChild := s.nextChild + 1 }, ?_, ?_, ?_⟩
      · simp [setLeafStep, hnlt, hgt, getOrCreateChildSubtree, hc]
      · exact alookup_ainsert_self _ _ _
      · intro c0 hc0
        exact absurd hc0 (by simp)
  · intro heq
    have hnlt : ¬(index.length * 8 < s.pfx.length * 8 + s.subtreeDepth) := by
      omega
    have hngt : ¬(index.length * 8 > s.pfx.length * 8 + s.subtreeDepth) := by
      omega
    simp [setLeafStep, hnlt, hngt]

/-- Witness for C6: a one-byte-prefixed depth-8 worker rejects a one-byte
index; the root depth-8 worker delegates a two-byte index and enqueues a
one-byte one. -/
theorem C6_setLeaf_dispatch_witness :
    setLeafStep ⟨[1], 8, [], [], 5⟩ [0] [7] =
      (.tooShallow 8 16, ⟨[1], 8, [], [], 5⟩) ∧
    (∃ c s2, setLeafStep ⟨[], 8, [], [], 0⟩ [0, 1] [7] =
      (.delegated [0, 1] [7] c, s2)) ∧
    setLeafStep ⟨[], 8, [], [], 0⟩ [0] [7] =
      (.enqueued, ⟨[], 8, [.trivial [0] [7]], [], 0⟩) := by
  refine ⟨?_, ?_, ?_⟩
  · have t := (C6_setLeaf_dispatch ⟨[1], 8, [], [], 5⟩ [0] [7]).1 (by decide)
    simpa using t
  · obtain ⟨c, s2, he, -, -⟩ :=
      (C6_setLeaf_dispatch ⟨[], 8, [], [], 0⟩ [0, 1] [7]).2.1 (by decide)
    exact ⟨c, s2, he⟩
  · have t := (C6_setLeaf_dispatch ⟨[], 8, [], [], 0⟩ [0] [7]).2.2 (by decide)
    simpa using t

/-- C1 counterexample: two `setLeaf` calls with the same full-depth index
each enqueue their own producer; the drain loop hands HStar2 a leaf list
with two entries for that index (no last-writer-wins deduplication happens
in the writer's leaf queue). -/
theorem C1_dedup_counterexample :
    (setLeafStep ⟨[], 8, [], [], 0⟩ [0] [7]).1 = .enqueued ∧
    (setLeafStep (setLeafStep ⟨[], 8, [], [], 0⟩ [0] [7]).2 [0] [9]).1 =
      .enqueued ∧
    (setLeafStep (setLeafStep ⟨[], 8, [], [], 0⟩ [0] [7]).2 [0] [9]).2.leafQueue
      = [.trivial [0] [7], .trivial [0] [9]] ∧
    drainQueue (fun _ => .ok []) 1 [.trivial [0] [7], .trivial [0] [9]] =
      .ok ([⟨0, [7]⟩, ⟨0, [9]⟩],
           [⟨⟨bytesToBits [0]⟩, [7], 1⟩, ⟨⟨bytesToBits [0]⟩, [9], 1⟩]) ∧
    ¬(([⟨0, [7]⟩, ⟨0, [9]⟩] : List HStar2LeafHash).filter
        (fun l => l.index == 0)).length ≤ 1 := by
  refine ⟨by decide, by decide, by decide, by rfl, by decide⟩

/-- C1 as amended: the writer does not deduplicate; when the drain loop at
the start of `buildSubtree` succeeds, the leaf list handed to HStar2
contains exactly one entry per queued producer, in queue order, so
duplicate indices within a batch are passed through to HStar2 (which is
what rejects them) rather than collapsed last-writer-wins. -/
theorem C1_no_leaf_dedup (env : Nat → Except String Bytes) (rev : Int)
    (queue : List Producer) (ls : List HStar2LeafHash) (ns : List Node)
    (h : drainQueue env rev queue = .ok (ls, ns)) :
    ls.map (fun l => (l.index, l.leafHash)) =
      queue.map (fun p =>
        match runProducer env p with
        | .ok ih => (bytesToNat ih.1, ih.2)
        | .error _ => (0, [])) := by
  induction queue generalizing ls ns with
  | nil =>
    simp only [drainQueue, Except.ok.injEq, Prod.mk.injEq] at h
    simp [← h.1]
  | cons p rest ih =>
    simp only [drainQueue] at h
    cases hp : runProducer env p with
    | error e => rw [hp] at h; exact absurd h (by simp)
    | ok ihh =>
      rw [hp] at h
      cases hr : drainQueue env rev rest with
      | error e => rw [hr] at h; exact absurd h (by simp)
      | ok pr =>
        rw [hr] at h
        simp only [Except.ok.injEq, Prod.mk.injEq] at h
        obtain ⟨hl, -⟩ := h
        subst hl
        simp only [List.map_cons, hp]
        exact congrArg _ (ih pr.1 pr.2 (by rw [hr]))

/-- Witness for C1 as amended, at the duplicate-index queue: both entries
survive the drain, in order. -/
theorem C1_no_leaf_dedup_witness :
    ([⟨0, [7]⟩, ⟨0, [9]⟩] : List HStar2LeafHash).map
        (fun l => (l.index, l.leafHash)) =
      ([.trivial [0] [7], .trivial [0] [9]] : List Producer).map (fun p =>
        match runProducer (fun _ => .ok []) p with
        | .ok ih => (bytesToNat ih.1, ih.2)
        | .error _ => (0, [])) :=
  C1_no_leaf_dedup (fun _ => .ok []) 1 [.trivial [0] [7], .trivial [0] [9]]
    [⟨0, [7]⟩, ⟨0, [9]⟩]
    [⟨⟨bytesToBits [0]⟩, [7], 1⟩, ⟨⟨bytesToBits [0]⟩, [9], 1⟩] (by rfl)

/-- C2: if any leaf producer, any storage operation inside HStar2, or the
final node write during finalisation returns an error, that error aborts
the transaction body; and an aborted body rolls the transaction back - the
storage content is exactly what it was before `buildSubtree` ran, no
pending node is committed - while the error becomes the single value
delivered on the worker's root slot. -/
theorem C2_error_aborts_transaction (pfx : Bytes) (rev : Int)
    (env : Nat → Except String Bytes) (queue : List Producer)
    (hstar2 : List HStar2LeafHash →
      Except String (Bytes × List (Nat × Nat × Bytes)))
    (setM : List Node → Except String Unit) (storage0 : List Node)
    (e : String) :
    (buildInner pfx rev env queue hstar2 setM = .error e →
      buildSubtree pfx rev env queue hstar2 setM storage0 =
        ⟨storage0, ⟨[⟨none, some e⟩], true⟩⟩) ∧
    (drainQueue env rev queue = .error e →
      buildInner pfx rev env queue hstar2 setM = .error e) ∧
    (∀ leaves nodes0, drainQueue env rev queue = .ok (leaves, nodes0) →
      hstar2 leaves = .error e →
      buildInner pfx rev env queue hstar2 setM = .error e) ∧
    (∀ leaves nodes0 root calls,
      drainQueue env rev queue = .ok (leaves, nodes0) →
      hstar2 leaves = .ok (root, calls) →
      setM (applySetNodes pfx rev calls nodes0) = .error e →
      buildInner pfx rev env queue hstar2 setM = .error e) := by
  refine ⟨?_, ?_, ?_, ?_⟩
  · intro h
    simp [buildSubtree, h]
  · intro h
    simp [buildInner, h]
  · intro leaves nodes0 hd hh
    simp [buildInner, hd, hh]
  · intro leaves nodes0 root calls hd hh hs
    simp [buildInner, hd, hh, hs]

/-- Witness for C2: a failing child-root producer aborts the build; the
storage stays empty and the error is the single buffered root value. -/
theorem C2_error_aborts_transaction_witness :
    buildSubtree [] 1 (fun _ => .error "boom") [.childRoot [0] 0]
        (fun _ => .ok ([], [])) (fun _ => .ok ()) [] =
      ⟨[], ⟨[⟨none, some "boom"⟩], true⟩⟩ :=
  (C2_error_aborts_transaction [] 1 (fun _ => .error "boom")
      [.childRoot [0] 0] (fun _ => .ok ([], [])) (fun _ => .ok ()) []
      "boom").1
    ((C2_error_aborts_transaction [] 1 (fun _ => .error "boom")
        [.childRoot [0] 0] (fun _ => .ok ([], [])) (fun _ => .ok ()) []
        "boom").2.1 rfl)

/-- Receiving from an empty closed channel always yields the zero value. -/
theorem recvN_empty_closed {α : Type} (zero : α) (n : Nat) :
    recvN zero n ⟨[], true⟩ = some zero := by
  induction n with
  | zero => rfl
  | succ k ih => simpa [recvN, chanRecv] using ih

/-- C10: the computed root (or error) is delivered through `RootHash`
exactly once: the root channel holds exactly one value and is closed when
`buildSubtree` exits, the first receive returns the computed hash (on
success) or the error (on failure), and every later receive returns the
zero value - hash `nil`, error `nil`. -/
theorem C10_root_delivered_once (pfx : Bytes) (rev : Int)
    (env : Nat → Except String Bytes) (queue : List Producer)
    (hstar2 : List HStar2LeafHash →
      Except String (Bytes × List (Nat × Nat × Bytes)))
    (setM : List Node → Except String Unit) (storage0 : List Node) :
    ((buildSubtree pfx rev env queue hstar2 setM storage0).rootChan.buffer.length
      = 1) ∧
    ((buildSubtree pfx rev env queue hstar2 setM storage0).rootChan.closed
      = true) ∧
    (∀ root ns, buildInner pfx rev env queue hstar2 setM = .ok (root, ns) →
      recvN ⟨none, none⟩ 0
          (buildSubtree pfx rev env queue hstar2 setM storage0).rootChan =
        some ⟨some root, none⟩) ∧
    (∀ e, buildInner pfx rev env queue hstar2 setM = .error e →
      recvN ⟨none, none⟩ 0
          (buildSubtree pfx rev env queue hstar2 setM storage0).rootChan =
        some ⟨none, some e⟩) ∧
    (∀ n, 1 ≤ n →
      recvN ⟨none, none⟩ n
          (buildSubtree pfx rev env queue hstar2 setM storage0).rootChan =
        some ⟨none, none⟩) := by
  refine ⟨?_, ?_, ?_, ?_, ?_⟩
  · cases h : buildInner pfx rev env queue hstar2 setM with
    | error e => simp [buildSubtree, h]
    | ok v => simp [buildSubtree, h]
  · cases h : buildInner pfx rev env queue hstar2 setM with
    | error e => simp [buildSubtree, h]
    | ok v => simp [buildSubtree, h]
  · intro root ns h
    simp [buildSubtree, h, recvN, chanRecv]
  · intro e h
    simp [buildSubtree, h, recvN, chanRecv]
  · intro n hn
    match n, hn with
    | k + 1, _ =>
      cases h : buildInner pfx rev env queue hstar2 setM with
      | error e =>
        simpa [buildSubtree, h, recvN, chanRecv] using
          recvN_empty_closed (α := RootHashOrError) ⟨none, none⟩ k
      | ok v =>
        simpa [buildSubtree, h, recvN, chanRecv] using
          recvN_empty_closed (α := RootHashOrError) ⟨none, none⟩ k

/-- Witness for C10: a successful empty build delivers its root on the
first receive and the zero value on the two following receives. -/
theorem C10_root_delivered_once_witness :
    recvN ⟨none, none⟩ 0
        (buildSubtree [] 1 (fun _ => .ok []) []
          (fun _ => .ok ([5], [])) (fun _ => .ok ()) []).rootChan =
      some ⟨some [5], none⟩ ∧
    recvN ⟨none, none⟩ 1
        (buildSubtree [] 1 (fun _ => .ok []) []
          (fun _ => .ok ([5], [])) (fun _ => .ok ()) []).rootChan =
      some ⟨none, none⟩ ∧
    recvN ⟨none, none⟩ 2
        (buildSubtree [] 1 (fun _ => .ok []) []
          (fun _ => .ok ([5], [])) (fun _ => .ok ()) []).rootChan =
      some ⟨none, none⟩ := by
  have t := C10_root_delivered_once [] 1 (fun _ => .ok []) []
    (fun _ => .ok ([5], [])) (fun _ => .ok ()) []
  exact ⟨t.2.2.1 [5] [] rfl, t.2.2.2.2 1 (by decide), t.2.2.2.2 2 (by decide)⟩

/-- Lookup of a different key is unaffected by an insert. -/
theorem alookup_ainsert_ne {κ α : Type} [DecidableEq κ]
    (m : List (κ × α)) (k0 k : κ) (v : α) (h : k ≠ k0) :
    alookup (ainsert m k0 v) k = alookup m k := by
  induction m with
  | nil => simp only [ainsert, alookup, if_neg (Ne.symm h)]
  | cons e rest ih =>
    by_cases he : e.1 = k0
    · have hek : e.1 ≠ k := by rw [he]; exact Ne.symm h
      simp only [ainsert, if_pos he, alookup, if_neg (Ne.symm h), if_neg hek]
    · simp only [ainsert, if_neg he, alookup, ih]

/-- Lookup of a different key is unaffected by a delete. -/
theorem alookup_aerase_ne {κ α : Type} [DecidableEq κ]
    (m : List (κ × α)) (k0 k : κ) (h : k ≠ k0) :
    alookup (aerase m k0) k = alookup m k := by
  induction m with
  | nil => rfl
  | cons e rest ih =>
    by_cases he : e.1 = k0
    · have hek : e.1 ≠ k := by rw [he]; exact Ne.symm h
      simp only [aerase, if_pos he, alookup, if_neg hek, ih]
    · simp only [aerase, if_neg he, alookup, ih]

/-- A lookup miss means no entry carries the key. -/
theorem alookup_eq_none_iff {κ α : Type} [DecidableEq κ]
    (m : List (κ × α)) (k : κ) :
    alookup m k = none ↔ ∀ e ∈ m, e.1 ≠ k := by
  induction m with
  | nil => simp [alookup]
  | cons e rest ih =>
    by_cases he : e.1 = k <;> simp [alookup, he, ih]

/-- A lookup hit exhibits a member entry. -/
theorem alookup_mem {κ α : Type} [DecidableEq κ]
    (m : List (κ × α)) (k : κ) (v : α) (h : alookup m k = some v) :
    (k, v) ∈ m := by
  induction m with
  | nil => simp [alookup] at h
  | cons e rest ih =>
    by_cases he : e.1 = k
    · simp only [alookup, if_pos he] at h
      have : e = (k, v) := by
        cases e
        simp_all
      simp [this]
    · simp only [alookup, if_neg he] at h
      exact List.mem_cons_of_mem _ (ih h)

/-- Membership in a deleted map. -/
theorem mem_aerase {κ α : Type} [DecidableEq κ]
    (m : List (κ × α)) (k : κ) (e : κ × α) :
    e ∈ aerase m k ↔ e ∈ m ∧ e.1 ≠ k := by
  induction m with
  | nil => simp [aerase]
  | cons f rest ih =>
    by_cases hf : f.1 = k
    · rw [aerase, if_pos hf, ih]
      simp only [List.mem_cons]
      constructor
      · rintro ⟨hm, hne⟩
        exact ⟨.inr hm, hne⟩
      · rintro ⟨hm | hm, hne⟩
        · exact absurd (hm ▸ hf) hne
        · exact ⟨hm, hne⟩
    · rw [aerase, if_neg hf]
      simp only [List.mem_cons, ih]
      constructor
      · rintro (hm | ⟨hm, hne⟩)
        · exact ⟨.inl hm, hm ▸ hf⟩
        · exact ⟨.inr hm, hne⟩
      · rintro ⟨hm | hm, hne⟩
        · exact .inl hm
        · exact .inr ⟨hm, hne⟩

/-- Proof elements returned by the proof loop: when the sibling paths are
pairwise distinct, element `i` is exactly the (last-writer-wins) map entry
for sibling `i`, the deletions along the way notwithstanding. -/
theorem proofLoop_fst (sibs : List NodeID) (m : List (List Bool × Bytes))
    (hp : sibs.Pairwise (fun a b => a.path ≠ b.path)) :
    (proofLoop sibs m).1 = sibs.map (fun s => alookup m s.path) := by
  induction sibs generalizing m with
  | nil => rfl
  | cons s rest ih =>
    rw [List.pairwise_cons] at hp
    obtain ⟨hhead, htail⟩ := hp
    cases hm : alookup m s.path with
    | none => simp [proofLoop, hm, ih m htail]
    | some v =>
      simp only [proofLoop, hm, List.map_cons]
      congr 1
      rw [ih (aerase m s.path) htail]
      exact List.map_congr_left fun s2 hs2 =>
        alookup_aerase_ne m s.path s2.path (Ne.symm (hhead s2 hs2))

/-- The map left over by the proof loop consists of exactly those fetched
entries whose key is not among the requested sibling paths. -/
theorem mem_proofLoop_snd (sibs : List NodeID)
    (m : List (List Bool × Bytes)) (e : List Bool × Bytes) :
    e ∈ (proofLoop sibs m).2 ↔ e ∈ m ∧ ∀ s ∈ sibs, s.path ≠ e.1 := by
  induction sibs generalizing m with
  | nil => simp [proofLoop]
  | cons s rest ih =>
    cases hm : alookup m s.path with
    | none =>
      have hno := (alookup_eq_none_iff m s.path).mp hm
      simp only [proofLoop, hm, ih m, List.forall_mem_cons]
      constructor
      · rintro ⟨hem, hrest⟩
        exact ⟨hem, Ne.symm (hno e hem), hrest⟩
      · rintro ⟨hem, -, hrest⟩
        exact ⟨hem, hrest⟩
    | some v =>
      simp only [proofLoop, hm, ih (aerase m s.path), mem_aerase,
        List.forall_mem_cons]
      constructor
      · rintro ⟨⟨hem, hne⟩, hrest⟩
        exact ⟨hem, Ne.symm hne, hrest⟩
      · rintro ⟨hem, hne, hrest⟩
        exact ⟨⟨hem, Ne.symm hne⟩, hrest⟩

/-- The proof loop yields one element per requested sibling. -/
theorem proofLoop_fst_length (sibs : List NodeID)
    (m : List (List Bool × Bytes)) :
    (proofLoop sibs m).1.length = sibs.length := by
  induction sibs generalizing m with
  | nil => rfl
  | cons s rest ih =>
    cases hm : alookup m s.path with
    | none => simp [proofLoop, hm, ih m]
    | some v => simp [proofLoop, hm, ih (aerase m s.path)]

/-- Lookup in a map extended by an insert hits for the inserted key or
wherever the original map hit. -/
theorem alookup_ainsert_isSome {κ α : Type} [DecidableEq κ]
    (m : List (κ × α)) (k0 k : κ) (v : α) :
    (alookup (ainsert m k0 v) k).isSome ↔ k = k0 ∨ (alookup m k).isSome := by
  by_cases hk : k = k0
  · subst hk
    simp [alookup_ainsert_self]
  · rw [alookup_ainsert_ne m k0 k v hk]
    simp [hk]

/-- Lookup in the node map built by `InclusionProof` hits exactly the paths
of the fetched nodes. -/
theorem alookup_buildNodeMap_isSome (nodes : List Node) (k : List Bool) :
    (alookup (buildNodeMap nodes) k).isSome ↔
      ∃ n ∈ nodes, n.nodeID.path = k := by
  suffices h : ∀ (m : List (List Bool × Bytes)),
      (alookup (nodes.foldl (fun mm n => ainsert mm n.nodeID.path n.hash) m)
          k).isSome ↔
        (∃ n ∈ nodes, n.nodeID.path = k) ∨ (alookup m k).isSome by
    have := h []
    simpa [buildNodeMap, alookup] using this
  induction nodes with
  | nil => simp
  | cons n rest ih =>
    intro m
    simp only [List.foldl_cons]
    rw [ih (ainsert m n.nodeID.path n.hash), alookup_ainsert_isSome]
    constructor
    · rintro (⟨n2, h2, hp⟩ | h | h)
      · exact .inl ⟨n2, List.mem_cons_of_mem _ h2, hp⟩
      · exact .inl ⟨n, List.mem_cons_self n rest, h.symm⟩
      · exact .inr h
    · rintro (⟨n2, hn2, hp⟩ | h)
      · rcases List.mem_cons.mp hn2 with h2 | h2
        · subst h2
          exact .inr (.inl hp.symm)
        · exact .inl ⟨n2, h2, hp⟩
      · exact .inr (.inr h)

/-- Length of the bit expansion of a byte string. -/
theorem bytesToBits_length (bs : Bytes) :
    (bytesToBits bs).length = 8 * bs.length := by
  induction bs with
  | nil => rfl
  | cons b rest ih =>
    simp only [bytesToBits] at ih ⊢
    simp [List.flatMap_cons, byteBits, ih]
    ring

/-- The sibling of a non-empty path sits at the same depth. -/
theorem sibOf_path_length (q : List Bool) (hq : q ≠ []) :
    (sibOf q).path.length = q.length := by
  have : 1 ≤ q.length := List.length_pos.mpr hq
  simp [sibOf, List.length_dropLast]
  omega

/-- The `i`-th requested sibling (counting from the leaf) sits at depth
`|p| - i`. -/
theorem siblings_getD_length (p : List Bool) (i : Nat) (hi : i < p.length) :
    ((siblings p).getD i rootNodeID).path.length = p.length - i := by
  have h1 : (siblings p).getD i rootNodeID = sibOf (p.take (p.length - i)) := by
    rw [List.getD_eq_getElem?_getD]
    simp only [siblings, List.getElem?_map, List.getElem?_range hi]
    rfl
  rw [h1, sibOf_path_length, List.length_take]
  · omega
  · have hlen : (p.take (p.length - i)).length = p.length - i := by
      rw [List.length_take]
      omega
    intro hnil
    rw [hnil] at hlen
    simp at hlen
    omega

/-- Distinct requested siblings have distinct paths (their depths differ). -/
theorem siblings_paths_pairwise (p : List Bool) :
    (siblings p).Pairwise (fun a b => a.path ≠ b.path) := by
  unfold siblings
  rw [List.pairwise_map]
  refine List.Pairwise.imp_of_mem ?_ (List.pairwise_lt_range p.length)
  intro a b ha hb hab
  have ha2 : a < p.length := List.mem_range.mp ha
  have hb2 : b < p.length := List.mem_range.mp hb
  have la : (sibOf (p.take (p.length - a))).path.length = p.length - a := by
    rw [sibOf_path_length, List.length_take]
    · omega
    · intro hnil
      have := congrArg List.length hnil
      rw [List.length_take] at this
      simp at this
      omega
  have lb : (sibOf (p.take (p.length - b))).path.length = p.length - b := by
    rw [sibOf_path_length, List.length_take]
    · omega
    · intro hnil
      have := congrArg List.length hnil
      rw [List.length_take] at this
      simp at this
      omega
  intro heq
  have := congrArg List.length heq
  rw [la, lb] at this
  omega

/-- C5: a successful `InclusionProof` for a key of `D` bits returns exactly
`D` elements, ordered leaf-sibling first (element `i` belongs to the
sibling at depth `D - i`), each element being the stored hash for that
sibling when storage returned one (nothing otherwise); and it fails
whenever storage returns any node whose path is not in the requested
sibling set. -/
theorem C5_inclusionProof (index : Bytes) (nodes : List Node) :
    (∀ r, InclusionProof index (.ok nodes) = .ok r →
      r.length = 8 * index.length ∧
      r = (siblings (bytesToBits index)).map
            (fun s => alookup (buildNodeMap nodes) s.path)) ∧
    (∀ i, i < 8 * index.length →
      ((siblings (bytesToBits index)).getD i rootNodeID).path.length =
        8 * index.length - i) ∧
    ((∃ n ∈ nodes,
        n.nodeID.path ∉ (siblings (bytesToBits index)).map NodeID.path) →
      InclusionProof index (.ok nodes) =
        .error "failed to consume all returned nodes") := by
  refine ⟨?_, ?_, ?_⟩
  · intro r hr
    simp only [InclusionProof] at hr
    split at hr
    · exact absurd hr (by simp)
    · have hr2 := Except.ok.inj hr
      subst hr2
      constructor
      · rw [proofLoop_fst_length]
        simp [siblings, bytesToBits_length]
      · exact proofLoop_fst _ _ (siblings_paths_pairwise _)
  · intro i hi
    have h := siblings_getD_length (bytesToBits index) i
      (by rwa [bytesToBits_length])
    rwa [bytesToBits_length] at h
  · rintro ⟨n, hn, hout⟩
    have hsome : (alookup (buildNodeMap nodes) n.nodeID.path).isSome :=
      (alookup_buildNodeMap_isSome nodes n.nodeID.path).mpr ⟨n, hn, rfl⟩
    obtain ⟨v, hv⟩ := Option.isSome_iff_exists.mp hsome
    have hmem : (n.nodeID.path, v) ∈ buildNodeMap nodes :=
      alookup_mem _ _ _ hv
    have hfinal : (n.nodeID.path, v) ∈
        (proofLoop (siblings (bytesToBits index)) (buildNodeMap nodes)).2 := by
      rw [mem_proofLoop_snd]
      refine ⟨hmem, ?_⟩
      intro s hs heq
      exact hout (List.mem_map.mpr ⟨s, hs, heq⟩)
    have hne : (proofLoop (siblings (bytesToBits index))
        (buildNodeMap nodes)).2.length ≠ 0 := by
      intro h0
      rw [List.length_eq_zero] at h0
      rw [h0] at hfinal
      exact absurd hfinal (List.not_mem_nil _)
    simp only [InclusionProof]
    rw [if_pos hne]

/-- Witness for C5: a two-bit... rather, a one-byte key with one stored
sibling yields an 8-element proof carrying that hash first; an unrelated
returned node makes the call fail. -/
theorem C5_inclusionProof_witness :
    (InclusionProof [0x12]
        (.ok [⟨⟨[false, false, false, true, false, false, true, true]⟩,
              [7], 1⟩]) =
      .ok [some [7], none, none, none, none, none, none, none] →
        True) ∧
    ([some [7], none, none, none, none, none, none, none] :
        List (Option Bytes)).length = 8 * [0x12].length ∧
    InclusionProof [0x12] (.ok [⟨⟨[true, true]⟩, [7], 1⟩]) =
      .error "failed to consume all returned nodes" := by
  refine ⟨fun _ => trivial, ?_, ?_⟩
  · have t := (C5_inclusionProof [0x12]
      [⟨⟨[false, false, false, true, false, false, true, true]⟩, [7], 1⟩]).1
      [some [7], none, none, none, none, none, none, none] (by rfl)
    exact t.1
  · exact (C5_inclusionProof [0x12] [⟨⟨[true, true]⟩, [7], 1⟩]).2.2
      ⟨⟨⟨[true, true]⟩, [7], 1⟩, by simp, by decide⟩

/-- A tile read back at the suffix it was just written at yields the
written hash. -/
theorem valueAt_setValue_self (t : Tile) (sfx : List Bool) (hash : Bytes) :
    (t.setValue sfx hash).valueAt sfx = some hash := by
  by_cases hl : sfx.length = t.depth
  · simp [Tile.setValue, Tile.valueAt, hl, alookup_ainsert_self]
  · simp [Tile.setValue, Tile.valueAt, hl, alookup_ainsert_self]

/-- A scenario round over a store already holding the tile with the target
hash in place reads it, drops the write, and flushes nothing. -/
theorem cacheRound_hit (h : Nat) (p : List Bool) (hash : Bytes)
    (store : TileStore) (t : Tile)
    (ht : alookup store (splitID h p).1 = some t)
    (hv : t.valueAt (splitID h p).2 = some hash) :
    cacheRound h p hash store = (0, store) := by
  simp [cacheRound, getNodeHash, setNodeHash, loadTile, flushCache,
    alookup, ainsert, ht, hv]

/-- A scenario round over a store lacking the tile writes it once: the
flush emits the empty tile updated with the hash at the suffix. -/
theorem cacheRound_miss (h : Nat) (p : List Bool) (hash : Bytes)
    (store : TileStore)
    (ht : alookup store (splitID h p).1 = none) :
    cacheRound h p hash store =
      (1, ainsert store (splitID h p).1
            (Tile.setValue ⟨(splitID h p).1, h, [], []⟩ (splitID h p).2
              hash)) := by
  simp [cacheRound, getNodeHash, setNodeHash, loadTile, flushCache,
    alookup, ainsert, ht, Tile.valueAt]

/-- Once the store holds the tile with the hash in place, any number of
further scenario rounds write nothing. -/
theorem cacheRounds_steady (h : Nat) (p : List Bool) (hash : Bytes)
    (n : Nat) :
    ∀ (store : TileStore) (t : Tile),
    alookup store (splitID h p).1 = some t →
    t.valueAt (splitID h p).2 = some hash →
    cacheRounds h p hash n store = 0 := by
  induction n with
  | zero => intro store t _ _; rfl
  | succ k ih =>
    intro store t ht hv
    rw [cacheRounds, cacheRound_hit h p hash store t ht hv]
    simpa using ih store t ht hv

/-- C7: writing a hash equal to the entry already present leaves the cache
(and in particular the tile's dirty flag) untouched; a flush with no dirty
tile makes no `writeTiles` call and changes nothing; and the
read-set-flush scenario repeated `n ≥ 1` times from an empty store issues
exactly one storage write - the first round's. -/
theorem C7_cache_idempotent_writes (h : Nat) (store : TileStore) (c : SCache)
    (p : List Bool) (hash : Bytes) :
    (∀ t d, alookup c.entries (splitID h p).1 = some ⟨t, d⟩ →
      t.valueAt (splitID h p).2 = some hash →
      setNodeHash h store c p hash = c) ∧
    ((∀ e ∈ c.entries, e.2.dirty = false) →
      flushCache c store = (0, store, c)) ∧
    (∀ n, 1 ≤ n → cacheRounds h p hash n [] = 1) := by
  refine ⟨?_, ?_, ?_⟩
  · intro t d ht hv
    simp [setNodeHash, loadTile, ht, hv]
  · intro hclean
    have hfil : c.entries.filter (fun e => e.2.dirty) = [] :=
      List.filter_eq_nil_iff.mpr (fun e he => by simp [hclean e he])
    simp [flushCache, hfil]
  · intro n hn
    match n, hn with
    | k + 1, _ =>
      rw [cacheRounds, cacheRound_miss h p hash [] (by rfl)]
      rw [cacheRounds_steady h p hash k _
        (Tile.setValue ⟨(splitID h p).1, h, [], []⟩ (splitID h p).2 hash)
        (alookup_ainsert_self [] _ _) (valueAt_setValue_self _ _ _)]

/-- Witness for C7 at height 2: a cache already holding the hash is left
unchanged by the write, a clean cache flushes nothing, and three scenario
rounds from an empty store write exactly once. -/
theorem C7_cache_idempotent_writes_witness :
    setNodeHash 2 []
        ⟨[([true, false],
           ⟨⟨[true, false], 2, [], [([true], [9])]⟩, false⟩)]⟩
        [true, false, true] [9] =
      ⟨[([true, false],
         ⟨⟨[true, false], 2, [], [([true], [9])]⟩, false⟩)]⟩ ∧
    flushCache
        ⟨[([true, false],
           ⟨⟨[true, false], 2, [], [([true], [9])]⟩, false⟩)]⟩ [] =
      (0, [],
       ⟨[([true, false],
          ⟨⟨[true, false], 2, [], [([true], [9])]⟩, false⟩)]⟩) ∧
    cacheRounds 2 [true, false, true] [9] 3 [] = 1 := by
  have t := C7_cache_idempotent_writes 2 []
    ⟨[([true, false], ⟨⟨[true, false], 2, [], [([true], [9])]⟩, false⟩)]⟩
    [true, false, true] [9]
  refine ⟨t.1 ⟨[true, false], 2, [], [([true], [9])]⟩ false (by decide)
    (by decide), t.2.1 (by decide), t.2.2 3 (by decide)⟩

/-- Pushing onto a stack whose levels all exceed the pushed level merges
nothing. -/
theorem pushMerge_no_merge (H : Bytes → Bytes → Bytes) (l : Nat) (x : Bytes)
    (s : List (Nat × Bytes)) (hs : ∀ e ∈ s, l < e.1) :
    pushMerge H l x s = ((l, x) :: s, []) := by
  cases s with
  | nil => rfl
  | cons e rest =>
    have hne : e.1 ≠ l := by
      have := hs e (List.mem_cons_self e rest)
      omega
    simp [pushMerge, hne]

/-- Appending a concatenation appends in two stages, concatenating the
logs. -/
theorem appendAll_append (H : Bytes → Bytes → Bytes) (a b : List Bytes)
    (s : List (Nat × Bytes)) :
    appendAll H (a ++ b) s =
      ((appendAll H b (appendAll H a s).1).1,
       (appendAll H a s).2 ++ (appendAll H b (appendAll H a s).1).2) := by
  induction a generalizing s with
  | nil => simp [appendAll]
  | cons x rest ih =>
    simp only [List.cons_append, appendAll, List.append_eq]
    rw [ih (pushMerge H 0 x s).1]
    simp [List.append_assoc]

/-- Appending `2^d` leaves to a stack whose levels are all at least `d`
behaves like pushing the perfect Merkle root of those leaves at level `d`:
the stack agrees, and the log consists of the interior nodes of the
leaves' perfect tree (levels from 1 to `d`, with `2^d - 2` of them
strictly below `d` and `2^d - 1` in total) followed by whatever the final
push-merge produces. -/
theorem appendAll_perfect (H : Bytes → Bytes → Bytes) :
    ∀ (d : Nat) (l : List Bytes) (s : List (Nat × Bytes)),
      l.length = 2 ^ d → (∀ e ∈ s, d ≤ e.1) →
      ∃ L : List (Nat × Bytes),
        appendAll H l s =
          ((pushMerge H d (mth H d l) s).1,
           L ++ (pushMerge H d (mth H d l) s).2) ∧
        (∀ e ∈ L, 1 ≤ e.1 ∧ e.1 ≤ d) ∧
        (L.filter (fun e => e.1 < d)).length = 2 ^ d - 2 ∧
        L.length = 2 ^ d - 1 := by
  intro d
  induction d with
  | zero =>
    intro l s hl _
    have h1 : l.length = 1 := by simpa using hl
    match l, h1 with
    | [x], _ =>
      refine ⟨[], ?_, by simp, by simp, by simp⟩
      simp [appendAll, mth]
  | succ d ih =>
    intro l s hl hs
    have hone : 1 ≤ 2 ^ d := Nat.one_le_two_pow
    have hpow : 2 ^ (d + 1) = 2 ^ d + 2 ^ d := by
      rw [pow_succ]
      omega
    have hl1len : (l.take (2 ^ d)).length = 2 ^ d := by
      rw [List.length_take]
      omega
    have hl2len : (l.drop (2 ^ d)).length = 2 ^ d := by
      rw [List.length_drop]
      omega
    have hs1 : ∀ e ∈ s, d ≤ e.1 := fun e he => Nat.le_of_succ_le (hs e he)
    obtain ⟨L1, he1, hb1, hf1, hn1⟩ := ih (l.take (2 ^ d)) s hl1len hs1
    have hnm : pushMerge H d (mth H d (l.take (2 ^ d))) s =
        ((d, mth H d (l.take (2 ^ d))) :: s, []) :=
      pushMerge_no_merge H d _ s (fun e he => hs e he)
    rw [hnm] at he1
    have hs2 : ∀ e ∈ ((d, mth H d (l.take (2 ^ d))) :: s), d ≤ e.1 := by
      intro e he
      rcases List.mem_cons.mp he with h | h
      · rw [h]
      · exact hs1 e h
    obtain ⟨L2, he2, hb2, hf2, hn2⟩ :=
      ih (l.drop (2 ^ d)) ((d, mth H d (l.take (2 ^ d))) :: s) hl2len hs2
    have hm2 : pushMerge H d (mth H d (l.drop (2 ^ d)))
        ((d, mth H d (l.take (2 ^ d))) :: s) =
        ((pushMerge H (d + 1)
            (H (mth H d (l.take (2 ^ d))) (mth H d (l.drop (2 ^ d)))) s).1,
         (d + 1, H (mth H d (l.take (2 ^ d))) (mth H d (l.drop (2 ^ d)))) ::
           (pushMerge H (d + 1)
             (H (mth H d (l.take (2 ^ d))) (mth H d (l.drop (2 ^ d)))) s).2) := by
      simp [pushMerge]
    rw [hm2] at he2
    have hmth : mth H (d + 1) l =
        H (mth H d (l.take (2 ^ d))) (mth H d (l.drop (2 ^ d))) := rfl
    refine ⟨L1 ++ L2 ++
      [(d + 1, H (mth H d (l.take (2 ^ d))) (mth H d (l.drop (2 ^ d))))],
      ?_, ?_, ?_, ?_⟩
    · conv_lhs => rw [← List.take_append_drop (2 ^ d) l]
      rw [appendAll_append, he1]
      simp only
      rw [he2]
      simp only [hmth]
      simp [List.append_assoc]
    · intro e he
      rcases List.mem_append.mp he with h12 | hroot
      · rcases List.mem_append.mp h12 with h1 | h2
        · have := hb1 e h1
          omega
        · have := hb2 e h2
          omega
      · have : e = (d + 1,
            H (mth H d (l.take (2 ^ d))) (mth H d (l.drop (2 ^ d)))) := by
          simpa using hroot
        rw [this]
        omega
    · rw [List.filter_append, List.filter_append, List.length_append,
        List.length_append]
      have hf1eq : L1.filter (fun e => e.1 < d + 1) = L1 :=
        List.filter_eq_self.mpr (fun e he => by
          have := hb1 e he
          simp only [decide_eq_true_eq]
          omega)
      have hf2eq : L2.filter (fun e => e.1 < d + 1) = L2 :=
        List.filter_eq_self.mpr (fun e he => by
          have := hb2 e he
          simp only [decide_eq_true_eq]
          omega)
      have hfroot : ([(d + 1,
          H (mth H d (l.take (2 ^ d))) (mth H d (l.drop (2 ^ d))))].filter
            (fun e => e.1 < d + 1)) = [] := by
        simp
      rw [hf1eq, hf2eq, hfroot, hn1, hn2]
      simp only [List.length_nil]
      omega
    · rw [List.length_append, List.length_append, hn1, hn2]
      simp only [List.length_singleton]
      omega

/-- C8: for a completely filled tile of `2^d` leaves, `PopulateLogTile`
produces exactly `internalNodeCount d` interior entries, a root hash equal
to the independently computed perfect Merkle tree root of the leaves in
index order, and never records the tile root itself (level `d`) among the
interior nodes; a partially filled tile gets no interior nodes at all. -/
theorem C8_populateLogTile (H : Bytes → Bytes → Bytes) (d : Nat)
    (leaves : List Bytes) (hl : leaves.length = 2 ^ d) :
    (PopulateLogTile H d leaves).internalNodes.length = internalNodeCount d ∧
    (PopulateLogTile H d leaves).rootHash = mth H d leaves ∧
    (∀ e ∈ (PopulateLogTile H d leaves).internalNodes,
      0 < e.1 ∧ e.1 < d) ∧
    (∀ ls : List Bytes, ls.length ≠ 2 ^ d →
      (PopulateLogTile H d ls).internalNodes = []) := by
  obtain ⟨L, he, hb, hf, hn⟩ := appendAll_perfect H d leaves [] hl (by simp)
  have hpm : pushMerge H d (mth H d leaves) [] =
      ([(d, mth H d leaves)], []) := rfl
  rw [hpm] at he
  have hfeq : L.filter (fun e => 0 < e.1 ∧ e.1 < d) =
      L.filter (fun e => e.1 < d) := by
    apply List.filter_congr
    intro e heL
    have := hb e heL
    simp only [decide_eq_decide]
    omega
  refine ⟨?_, ?_, ?_, ?_⟩
  · simp only [PopulateLogTile, he, if_pos hl, List.append_nil]
    rw [hfeq]
    exact hf
  · simp only [PopulateLogTile, he]
    rfl
  · intro e heI
    simp only [PopulateLogTile, he, if_pos hl, List.append_nil] at heI
    have hmem := List.mem_filter.mp heI
    simpa using hmem.2
  · intro ls hls
    simp [PopulateLogTile, hls]

/-- Witness for C8 at a depth-2 tile of four leaves with a concrete
children-hash function. -/
theorem C8_populateLogTile_witness :
    (PopulateLogTile (fun a b => a ++ b) 2
        [[0], [1], [2], [3]]).internalNodes.length = internalNodeCount 2 ∧
    (PopulateLogTile (fun a b => a ++ b) 2 [[0], [1], [2], [3]]).rootHash =
      mth (fun a b => a ++ b) 2 [[0], [1], [2], [3]] ∧
    (PopulateLogTile (fun a b => a ++ b) 2 [[0], [1], [2]]).internalNodes =
      [] := by
  have t := C8_populateLogTile (fun a b => a ++ b) 2 [[0], [1], [2], [3]]
    (by decide)
  exact ⟨t.1, t.2.1, t.2.2.2 [[0], [1], [2]] (by decide)⟩

end SMT
